import Mathlib

/-!
Verification of the expression-engine design specified for the polars
tutorial notebook (`src/user-guide/notebooks/introduction_polars.py`).
The notebook is a caller of the engine; the engine itself is not part of
the repository's files, so every definition below is modelled from the
spec (its section is cited at each definition) and the notebook's data.
-/

namespace PolarsSpec

/-- Modelled from the spec: cell values of the black-box column store
(§2, §3): typed nullable values — integers, strings, booleans, and the
list values produced by `Nested`/list-collecting results.  Nulls are
first-class data (§7). -/
inductive Val
  | vnull
  | int (n : Int)
  | str (s : String)
  | bool (b : Bool)
  | list (vs : List Val)

mutual

/-- Boolean equality of cell values (lists compared elementwise). -/
def Val.beq : Val → Val → Bool
  | .vnull, .vnull => true
  | .int a, .int b => a == b
  | .str a, .str b => a == b
  | .bool a, .bool b => a == b
  | .list as, .list bs => Val.beqList as bs
  | _, _ => false

/-- Boolean equality of lists of cell values. -/
def Val.beqList : List Val → List Val → Bool
  | [], [] => true
  | a :: as, b :: bs => Val.beq a b && Val.beqList as bs
  | _, _ => false

end

mutual

theorem Val.beq_iff : ∀ a b : Val, Val.beq a b = true ↔ a = b
  | .vnull, .vnull => by simp [Val.beq]
  | .int _, .int _ => by simp [Val.beq]
  | .str _, .str _ => by simp [Val.beq]
  | .bool _, .bool _ => by simp [Val.beq]
  | .list as, .list bs => by rw [Val.beq, Val.beqList_iff as bs]; simp
  | .vnull, .int _ => by simp [Val.beq]
  | .vnull, .str _ => by simp [Val.beq]
  | .vnull, .bool _ => by simp [Val.beq]
  | .vnull, .list _ => by simp [Val.beq]
  | .int _, .vnull => by simp [Val.beq]
  | .int _, .str _ => by simp [Val.beq]
  | .int _, .bool _ => by simp [Val.beq]
  | .int _, .list _ => by simp [Val.beq]
  | .str _, .vnull => by simp [Val.beq]
  | .str _, .int _ => by simp [Val.beq]
  | .str _, .bool _ => by simp [Val.beq]
  | .str _, .list _ => by simp [Val.beq]
  | .bool _, .vnull => by simp [Val.beq]
  | .bool _, .int _ => by simp [Val.beq]
  | .bool _, .str _ => by simp [Val.beq]
  | .bool _, .list _ => by simp [Val.beq]
  | .list _, .vnull => by simp [Val.beq]
  | .list _, .int _ => by simp [Val.beq]
  | .list _, .str _ => by simp [Val.beq]
  | .list _, .bool _ => by simp [Val.beq]

theorem Val.beqList_iff : ∀ as bs : List Val, Val.beqList as bs = true ↔ as = bs
  | [], [] => by simp [Val.beqList]
  | a :: as, b :: bs => by
      rw [Val.beqList]
      simp [Val.beq_iff a b, Val.beqList_iff as bs]
  | [], _ :: _ => by simp [Val.beqList]
  | _ :: _, [] => by simp [Val.beqList]

end

instance : DecidableEq Val := fun a b => decidable_of_iff _ (Val.beq_iff a b)

/-- Modelled from the spec: a table of the columnar store is an ordered
sequence of named, equally long columns (§2, §6). -/
def Table := List (String × List Val)

/-- Modelled from the spec: `column_names()` of the store contract (§6). -/
def colNames (tbl : Table) : List String := tbl.map Prod.fst

/-- Modelled from the spec: `get_column(name)` of the store contract (§6). -/
def getCol : Table → String → Option (List Val)
  | [], _ => none
  | (m, c) :: rest, n => if m = n then some c else getCol rest n

/-- Modelled from the spec: `row_count()` of the store contract (§6). -/
def rowCount : Table → Nat
  | [] => 0
  | (_, c) :: _ => c.length

/-- Modelled from the spec: the read-only view of a table restricted to
the rows of one group partition, in the group's index order (§4.2: in
`Aggregation` context the child "sees only that group's rows"). -/
def subTable (tbl : Table) (idxs : List Nat) : Table :=
  tbl.map (fun c => (c.1, idxs.map (fun i => c.2.getD i .vnull)))

/-- Modelled from the spec (§4.4): one insertion step of the grouping
engine's single pass: row index `i` with key value `k` is appended to
the index list of the group keyed `k`, or opens a new group at the end
(first-occurrence order). -/
def insertIdx (k : Val) (i : Nat) : List (Val × List Nat) → List (Val × List Nat)
  | [] => [(k, [i])]
  | (k', g) :: rest =>
    if k' = k then (k', g ++ [i]) :: rest else (k', g) :: insertIdx k i rest

/-- Modelled from the spec (§4.4): state of the grouping engine's pass
after scanning the first `m` row indices of the key column, in row
order. -/
def partAux (key : List Val) (m : Nat) : List (Val × List Nat) :=
  (List.range m).foldl (fun acc i => insertIdx (key.getD i .vnull) i acc) []

/-- Modelled from the spec (§4.4): `partition` of the grouping engine for
one key column: a single sequential pass in row order mapping each
composite key value to the ordered list of row indices sharing it,
groups in first-occurrence order. -/
def partitionKey (key : List Val) : List (Val × List Nat) :=
  partAux key key.length

/-- Modelled from the spec: error taxonomy of §7 (`fuelExhausted` is an
internal recursion budget marker of the embedding, unreachable when the
evaluator is given its expression's depth as budget). -/
inductive ErrorKind
  | unknownColumn
  | invalidExpression
  | shapeMismatch
  | duplicateOutputName
  | typeError
  | fuelExhausted
deriving DecidableEq

/-- Modelled from the spec (§4.4): `partition(table, key_column)` at the
engine's boundary: an unknown key column is `UnknownColumn` (§7). -/
def partitionTable (tbl : Table) (k : String) : Except ErrorKind (List (Val × List Nat)) :=
  match getCol tbl k with
  | none => .error .unknownColumn
  | some kcol => .ok (partitionKey kcol)

theorem insertIdx_keys_of_mem (k : Val) (i : Nat) :
    ∀ P : List (Val × List Nat), k ∈ P.map Prod.fst →
      (insertIdx k i P).map Prod.fst = P.map Prod.fst
  | [], h => by simp at h
  | (k', g) :: rest, h => by
    by_cases hk : k' = k
    · simp [insertIdx, hk]
    · simp only [List.map_cons, List.mem_cons] at h
      rcases h with h | h
      · exact absurd h.symm hk
      · simp [insertIdx, hk, insertIdx_keys_of_mem k i rest h]

theorem insertIdx_keys_of_not_mem (k : Val) (i : Nat) :
    ∀ P : List (Val × List Nat), k ∉ P.map Prod.fst →
      (insertIdx k i P).map Prod.fst = P.map Prod.fst ++ [k]
  | [], _ => by simp [insertIdx]
  | (k', g) :: rest, h => by
    simp only [List.map_cons, List.mem_cons] at h
    push_neg at h
    simp [insertIdx, Ne.symm h.1, insertIdx_keys_of_not_mem k i rest h.2]

theorem mem_insertIdx (k : Val) (i : Nat) :
    ∀ P : List (Val × List Nat), (P.map Prod.fst).Nodup →
      ∀ p ∈ insertIdx k i P,
        (p ∈ P ∧ p.1 ≠ k) ∨
          ∃ g, ((k, g) ∈ P ∨ (k ∉ P.map Prod.fst ∧ g = [])) ∧ p = (k, g ++ [i])
  | [], _, p, hp => by
    simp only [insertIdx, List.mem_singleton] at hp
    exact Or.inr ⟨[], Or.inr (by simp), by simp [hp]⟩
  | (k', g') :: rest, hNd, p, hp => by
    simp only [List.map_cons, List.nodup_cons] at hNd
    by_cases hk : k' = k
    · subst hk
      rw [insertIdx, if_pos rfl, List.mem_cons] at hp
      rcases hp with hp | hp
      · exact Or.inr ⟨g', Or.inl (List.mem_cons_self _ _), hp⟩
      · refine Or.inl ⟨List.mem_cons_of_mem _ hp, ?_⟩
        intro hpk
        exact hNd.1 (hpk ▸ List.mem_map_of_mem Prod.fst hp)
    · rw [insertIdx, if_neg hk, List.mem_cons] at hp
      rcases hp with hp | hp
      · refine Or.inl ⟨by simp [hp], ?_⟩
        simp only [hp]
        exact fun h => hk h
      · rcases mem_insertIdx k i rest hNd.2 p hp with h | ⟨g, hg, hpg⟩
        · exact Or.inl ⟨List.mem_cons_of_mem _ h.1, h.2⟩
        · refine Or.inr ⟨g, ?_, hpg⟩
          rcases hg with hg | hg
          · exact Or.inl (List.mem_cons_of_mem _ hg)
          · exact Or.inr ⟨by simp [Ne.symm hk, hg.1], hg.2⟩

theorem partAux_invariant (key : List Val) :
    ∀ m : Nat,
      ((partAux key m).map Prod.fst).Nodup
      ∧ (∀ i, i < m → key.getD i .vnull ∈ (partAux key m).map Prod.fst)
      ∧ (∀ p ∈ partAux key m,
          p.2 = (List.range m).filter (fun i => decide (key.getD i .vnull = p.1)))
  | 0 => by simp [partAux]
  | m + 1 => by
    obtain ⟨ih1, ih2, ih3⟩ := partAux_invariant key m
    have hstep : partAux key (m + 1) =
        insertIdx (key.getD m .vnull) m (partAux key m) := by
      simp [partAux, List.range_succ]
    by_cases hmem : key.getD m .vnull ∈ (partAux key m).map Prod.fst
    · refine ⟨?_, ?_, ?_⟩
      · rw [hstep, insertIdx_keys_of_mem _ _ _ hmem]; exact ih1
      · intro i hi
        rw [hstep, insertIdx_keys_of_mem _ _ _ hmem]
        rcases Nat.lt_succ_iff_lt_or_eq.mp hi with hi | hi
        · exact ih2 i hi
        · exact hi ▸ hmem
      · intro p hp
        rw [hstep] at hp
        rcases mem_insertIdx _ _ _ ih1 p hp with ⟨hpP, hpk⟩ | ⟨g, hg, hpg⟩
        · rw [ih3 p hpP, List.range_succ, List.filter_append,
            List.filter_cons, List.filter_nil,
            decide_eq_false (fun h => hpk h.symm)]
          simp
        · rcases hg with hg | hg
          · have hgval := ih3 _ hg
            simp only at hgval
            subst hpg
            simp only [hgval]
            show _ ++ [m] = (List.range (m + 1)).filter
              (fun i => decide (key.getD i Val.vnull = key.getD m Val.vnull))
            rw [List.range_succ, List.filter_append, List.filter_cons, List.filter_nil,
              decide_eq_true (Eq.refl (key.getD m Val.vnull))]
            simp
          · exact absurd hmem hg.1
    · refine ⟨?_, ?_, ?_⟩
      · rw [hstep, insertIdx_keys_of_not_mem _ _ _ hmem]
        simp only [List.nodup_append, List.nodup_cons]
        exact ⟨ih1, by simp, by simpa using fun h => hmem h⟩
      · intro i hi
        rw [hstep, insertIdx_keys_of_not_mem _ _ _ hmem]
        rcases Nat.lt_succ_iff_lt_or_eq.mp hi with hi | hi
        · exact List.mem_append_left _ (ih2 i hi)
        · simp [hi]
      · intro p hp
        rw [hstep] at hp
        rcases mem_insertIdx _ _ _ ih1 p hp with ⟨hpP, hpk⟩ | ⟨g, hg, hpg⟩
        · rw [ih3 p hpP, List.range_succ, List.filter_append,
            List.filter_cons, List.filter_nil,
            decide_eq_false (fun h => hpk h.symm)]
          simp
        · rcases hg with hg | hg
          · exact absurd (List.mem_map_of_mem Prod.fst hg) hmem
          · have hnone : (List.range m).filter
                (fun i => decide (key.getD i .vnull = key.getD m .vnull)) = [] := by
              rw [List.filter_eq_nil_iff]
              intro a ha
              rw [List.mem_range] at ha
              intro heq
              rw [decide_eq_true_eq] at heq
              exact hmem (heq ▸ ih2 a ha)
            subst hpg
            rw [hg.2]
            show [m] = (List.range (m + 1)).filter
              (fun i => decide (key.getD i Val.vnull = key.getD m Val.vnull))
            rw [List.range_succ, List.filter_append, List.filter_cons, List.filter_nil,
              decide_eq_true (Eq.refl (key.getD m Val.vnull)), hnone]
            simp

theorem count_filter_range (n i : Nat) (q : Nat → Bool) :
    ((List.range n).filter q).count i = if i < n ∧ q i then 1 else 0 := by
  by_cases hm : i ∈ (List.range n).filter q
  · have hiff := List.mem_filter.mp hm
    rw [List.count_eq_one_of_mem ((List.nodup_range n).filter q) hm]
    simp [List.mem_range.mp hiff.1, hiff.2]
  · rw [List.count_eq_zero_of_not_mem hm]
    simp only [List.mem_filter, List.mem_range] at hm
    push_neg at hm
    by_cases hi : i < n
    · simp [hi, hm hi]
    · simp [hi]

theorem count_flatten_partition (n : Nat) (kv : Nat → Val) :
    ∀ P : List (Val × List Nat), (P.map Prod.fst).Nodup →
      (∀ p ∈ P, p.2 = (List.range n).filter (fun i => decide (kv i = p.1))) →
      ∀ i, (P.map Prod.snd).flatten.count i =
        if i < n ∧ kv i ∈ P.map Prod.fst then 1 else 0
  | [], _, _, i => by simp
  | p :: rest, hNd, hg, i => by
    simp only [List.map_cons, List.nodup_cons] at hNd
    have hrest := count_flatten_partition n kv rest hNd.2
      (fun q hq => hg q (List.mem_cons_of_mem _ hq)) i
    simp only [List.map_cons, List.flatten_cons, List.count_append]
    rw [hg p (List.mem_cons_self _ _), count_filter_range, hrest]
    by_cases hi : i < n
    · by_cases hk : kv i = p.1
      · have h1 : kv i ∉ rest.map Prod.fst := fun hx => hNd.1 (hk ▸ hx)
        rw [if_pos ⟨hi, decide_eq_true hk⟩, if_neg (fun hc => h1 hc.2),
          if_pos ⟨hi, List.mem_cons.mpr (Or.inl hk)⟩]
      · rw [if_neg (fun hc => hk (of_decide_eq_true hc.2))]
        by_cases hr : kv i ∈ rest.map Prod.fst
        · rw [if_pos ⟨hi, hr⟩, if_pos ⟨hi, List.mem_cons_of_mem _ hr⟩]
        · have hnc : ¬(i < n ∧ kv i ∈ p.1 :: rest.map Prod.fst) := by
            rintro ⟨h1, h2⟩
            rcases List.mem_cons.mp h2 with h2 | h2
            · exact hk h2
            · exact hr h2
          rw [if_neg (fun hc => hr hc.2), if_neg hnc]
    · rw [if_neg (fun hc => hi hc.1), if_neg (fun hc => hi hc.1),
        if_neg (fun hc => hi hc.1)]

theorem partitionKey_keys_nodup (key : List Val) :
    ((partitionKey key).map Prod.fst).Nodup :=
  (partAux_invariant key key.length).1

theorem partitionKey_cover (key : List Val) (i : Nat) (hi : i < key.length) :
    key.getD i .vnull ∈ (partitionKey key).map Prod.fst :=
  (partAux_invariant key key.length).2.1 i hi

theorem partitionKey_groups (key : List Val) (p : Val × List Nat)
    (hp : p ∈ partitionKey key) :
    p.2 = (List.range key.length).filter (fun i => decide (key.getD i .vnull = p.1)) :=
  (partAux_invariant key key.length).2.2 p hp

theorem partitionKey_flatten_count (key : List Val) (i : Nat) :
    ((partitionKey key).map Prod.snd).flatten.count i =
      if i < key.length then 1 else 0 := by
  rw [count_flatten_partition key.length (fun j => key.getD j .vnull)
    (partitionKey key) (partitionKey_keys_nodup key)
    (fun p hp => partitionKey_groups key p hp) i]
  by_cases hi : i < key.length
  · rw [if_pos ⟨hi, partitionKey_cover key i hi⟩, if_pos hi]
  · rw [if_neg (fun hc => hi hc.1), if_neg hi]

theorem count_range' (n i : Nat) : (List.range n).count i = if i < n then 1 else 0 := by
  by_cases hi : i < n
  · rw [List.count_eq_one_of_mem (List.nodup_range n) (List.mem_range.mpr hi)]
    simp [hi]
  · rw [List.count_eq_zero_of_not_mem (by simpa using hi)]
    simp [hi]

theorem partitionKey_flatten_perm (key : List Val) :
    ((partitionKey key).map Prod.snd).flatten.Perm (List.range key.length) := by
  rw [List.perm_iff_count]
  intro i
  rw [partitionKey_flatten_count, count_range']

theorem partitionKey_groups_sorted (key : List Val) (p : Val × List Nat)
    (hp : p ∈ partitionKey key) : List.Pairwise (· < ·) p.2 := by
  rw [partitionKey_groups key p hp]
  exact (List.pairwise_lt_range _).sublist (List.filter_sublist _)

/-- C1: for every table `T` and every grouping key `k`, the group
partition produced by `partition(T,[k])` is a family of ordered
(strictly increasing) row-index lists that are pairwise disjoint and
whose union contains each row index in `{0..row_count-1}` exactly once:
their concatenation is a permutation of `range row_count`. -/
theorem partition_disjoint_ordered_cover (tbl : Table) (k : String)
    (kcol : List Val) (P : List (Val × List Nat))
    (hk : getCol tbl k = some kcol)
    (hlen : kcol.length = rowCount tbl)
    (hP : partitionTable tbl k = .ok P) :
    (P.map Prod.snd).flatten.Perm (List.range (rowCount tbl))
    ∧ ∀ p ∈ P, List.Pairwise (· < ·) p.2 := by
  rw [partitionTable, hk] at hP
  have hPeq : P = partitionKey kcol := (Except.ok.inj hP).symm
  subst hPeq
  refine ⟨hlen ▸ partitionKey_flatten_perm kcol, ?_⟩
  exact fun p hp => partitionKey_groups_sorted kcol p hp

/-- C1 witness: the partition of the notebook's table by `fruits` covers
row indices 0..4 exactly once, each group strictly increasing. -/
theorem partition_disjoint_ordered_cover_witness :
    ((partitionKey [Val.str "banana", Val.str "banana", Val.str "apple",
        Val.str "apple", Val.str "banana"]).map Prod.snd).flatten.Perm
      (List.range 5)
    ∧ ∀ p ∈ partitionKey [Val.str "banana", Val.str "banana", Val.str "apple",
        Val.str "apple", Val.str "banana"], List.Pairwise (· < ·) p.2 :=
  partition_disjoint_ordered_cover
    [("fruits", [Val.str "banana", Val.str "banana", Val.str "apple",
        Val.str "apple", Val.str "banana"])]
    "fruits" _ _ rfl rfl rfl

/-- The scenario table of the notebook (`In[2]`). -/
def df : Table :=
  [("A", [.int 1, .int 2, .int 3, .int 4, .int 5]),
   ("fruits", [.str "banana", .str "banana", .str "apple", .str "apple", .str "banana"]),
   ("B", [.int 5, .int 4, .int 3, .int 2, .int 1]),
   ("cars", [.str "beetle", .str "audi", .str "beetle", .str "beetle", .str "beetle"]),
   ("optional", [.int 28, .int 300, .vnull, .int 2, .int (-30)])]

/-- Modelled from the spec (§4.1): the three addressing modes of
`ColumnRef` (exact name, anchored regex, list of exact names) plus
`Wildcard`, resolved at evaluation time against the bound table. -/
inductive ColSelector
  | exact (nm : String)
  | regex (pat : String)
  | nameList (ns : List String)
  | wildcard
deriving DecidableEq

/-- Modelled from the spec (§3, §4.2): elementwise unary operators. -/
inductive UnOp
  | neg
  | lnot
deriving DecidableEq

/-- Modelled from the spec (§3, §4.2): elementwise binary operators;
`concat` is the string-concatenation combiner named in §4.2's `Fold`
discussion and exercised by the notebook's string fold (`In[15]`). -/
inductive BinOp
  | add
  | sub
  | mul
  | eq
  | concat
deriving DecidableEq

/-- Modelled from the spec (§4.2): aggregation operators (`mean` needs
the out-of-scope floating column type and is omitted; no claim uses
it). -/
inductive AggOp
  | sum
  | count
  | first
  | min
  | max
deriving DecidableEq

/-- Modelled from the spec (§3): the immutable expression-node tree.
`Namespaced` is out of core scope (§4.2) and the notebook-only sequence
operators (`reverse`, `shift`) with it; `Fold`'s children keep their
listed order.  `WindowOver` carries the §3 `Window` context's
`restore_order` flag; `aliasN` is the spec's `Alias`. -/
inductive Expr
  | col (s : ColSelector)
  | lit (v : Val)
  | un (op : UnOp) (child : Expr)
  | bin (op : BinOp) (l r : Expr)
  | agg (op : AggOp) (child : Expr)
  | filter (child pred : Expr)
  | cond (pred thenE elseE : Expr)
  | fold (init : Expr) (op : BinOp) (children : List Expr)
  | window (child : Expr) (key : String) (restoreOrder : Bool)
  | aliasN (child : Expr) (nm : String)

/-- Modelled from the spec (§3, §4.5): the result-shape sum type:
`Full`, `PerGroup`, `Scalar`, `Nested`. -/
inductive Result
  | full (vs : List Val)
  | scalar (v : Val)
  | perGroup (vs : List Val)
  | nested (vss : List (List Val))
deriving DecidableEq

instance {ε α : Type} [DecidableEq ε] [DecidableEq α] : DecidableEq (Except ε α) :=
  fun x y =>
    match x, y with
    | .error a, .error b =>
      if h : a = b then .isTrue (by rw [h]) else .isFalse (by simp [h])
    | .ok a, .ok b =>
      if h : a = b then .isTrue (by rw [h]) else .isFalse (by simp [h])
    | .error _, .ok _ => .isFalse (by simp)
    | .ok _, .error _ => .isFalse (by simp)

/-- Error-propagating map over a list (the evaluator's per-element
traversal; errors abort the whole call, §7). -/
def mapME (f : α → Except ErrorKind β) : List α → Except ErrorKind (List β)
  | [] => .ok []
  | a :: as =>
    match f a with
    | .error e => .error e
    | .ok b =>
      match mapME f as with
      | .error e => .error e
      | .ok bs => .ok (b :: bs)

/-- Modelled from the spec (§4.2): one elementwise unary application;
null propagates, an incompatible operand is `TypeError` (§7). -/
def applyUn : UnOp → Val → Except ErrorKind Val
  | _, .vnull => .ok .vnull
  | .neg, .int a => .ok (.int (-a))
  | .lnot, .bool b => .ok (.bool (!b))
  | _, _ => .error .typeError

/-- Modelled from the spec (§4.2): one elementwise binary application;
any null operand yields null, `eq` compares values, incompatible
operand types are `TypeError` (§7). -/
def applyBin : BinOp → Val → Val → Except ErrorKind Val
  | _, .vnull, _ => .ok .vnull
  | _, _, .vnull => .ok .vnull
  | .add, .int a, .int b => .ok (.int (a + b))
  | .sub, .int a, .int b => .ok (.int (a - b))
  | .mul, .int a, .int b => .ok (.int (a * b))
  | .eq, a, b => .ok (.bool (decide (a = b)))
  | .concat, .str a, .str b => .ok (.str (a ++ b))
  | _, _, _ => .error .typeError

/-- Elementwise combination of two equally long columns; a length
mismatch is `ShapeMismatch` (§4.5 rule 2). -/
def zipWithME (f : Val → Val → Except ErrorKind Val) :
    List Val → List Val → Except ErrorKind (List Val)
  | [], [] => .ok []
  | a :: as, b :: bs =>
    match f a b with
    | .error e => .error e
    | .ok c =>
      match zipWithME f as bs with
      | .error e => .error e
      | .ok cs => .ok (c :: cs)
  | _, _ => .error .shapeMismatch

/-- Modelled from the spec (§4.5): shape reconciliation before an
elementwise binary combination: a `Scalar` is replicated against the
other operand (rule 1), two `Full`/`PerGroup` results combine
elementwise with equal lengths (rules 2–3), anything involving `Nested`
is a shape error in this core (rule 4's scalar exception is unused by
the notebook and by every claim). -/
def applyBinR (op : BinOp) : Result → Result → Except ErrorKind Result
  | .scalar a, .scalar b => (applyBin op a b).map .scalar
  | .scalar a, .full bs => (mapME (fun b => applyBin op a b) bs).map .full
  | .full as, .scalar b => (mapME (fun a => applyBin op a b) as).map .full
  | .full as, .full bs => (zipWithME (applyBin op) as bs).map .full
  | .scalar a, .perGroup bs => (mapME (fun b => applyBin op a b) bs).map .perGroup
  | .perGroup as, .scalar b => (mapME (fun a => applyBin op a b) as).map .perGroup
  | .perGroup as, .perGroup bs => (zipWithME (applyBin op) as bs).map .perGroup
  | _, _ => .error .shapeMismatch

/-- Lift of `applyUn` over a result shape. -/
def applyUnR (op : UnOp) : Result → Except ErrorKind Result
  | .scalar v => (applyUn op v).map .scalar
  | .full vs => (mapME (applyUn op) vs).map .full
  | .perGroup vs => (mapME (applyUn op) vs).map .perGroup
  | .nested _ => .error .shapeMismatch

/-- The non-null values of a column (§4.2: nulls are excluded from
every reduction). -/
def nonNull (vs : List Val) : List Val :=
  vs.filter (fun v => match v with | .vnull => false | _ => true)

/-- Sum of a column of integers; a non-integer value is `TypeError`. -/
def sumInts : List Val → Except ErrorKind Int
  | [] => .ok 0
  | .int a :: rest => (sumInts rest).map (fun s => a + s)
  | _ :: _ => .error .typeError

/-- Minimum of a non-empty column of integers. -/
def minInts : List Val → Except ErrorKind Int
  | [.int a] => .ok a
  | .int a :: rest => (minInts rest).map (fun b => Min.min a b)
  | _ => .error .typeError

/-- Maximum of a non-empty column of integers. -/
def maxInts : List Val → Except ErrorKind Int
  | [.int a] => .ok a
  | .int a :: rest => (maxInts rest).map (fun b => Max.max a b)
  | _ => .error .typeError

/-- Modelled from the spec (§4.2): the reduction step of `Aggregate`:
null-skipping; an empty or all-null input reduces to null, except
`count` which yields 0; `first` is the first non-null value. -/
def reduceAgg (op : AggOp) (vs : List Val) : Except ErrorKind Val :=
  match op, nonNull vs with
  | .count, nn => .ok (.int nn.length)
  | .first, [] => .ok .vnull
  | .first, v :: _ => .ok v
  | .sum, [] => .ok .vnull
  | .sum, nn => (sumInts nn).map .int
  | .min, [] => .ok .vnull
  | .min, nn => (minInts nn).map .int
  | .max, [] => .ok .vnull
  | .max, nn => (maxInts nn).map .int

/-- Modelled from the spec (§4.5 rule 1, §6): materializing a result as
an output column of `n` rows: a `Scalar` is broadcast (replicated) to
one value per row, a `Full`/`PerGroup` result is its own value list and
a `Nested` result a list-valued column. -/
def materialize (n : Nat) : Result → List Val
  | .full vs => vs
  | .scalar v => List.replicate n v
  | .perGroup vs => vs
  | .nested vss => vss.map .list

/-- Collapse of one group's child result to that group's single value
(§4.2 `Aggregation`): a scalar stays itself, a full result becomes the
group's collected list (the list-collecting behaviour the notebook
shows for `pl.col("cars")`-style aggregations). -/
def collapse : Result → Val
  | .scalar v => v
  | .full vs => .list vs
  | .perGroup vs => .list vs
  | .nested vss => .list (vss.map .list)

/-- One group's child result as the group's list (the `Nested` shape of
§3, produced by `WindowOver` without `restore_order`). -/
def asList : Result → List Val
  | .scalar v => [v]
  | .full vs => vs
  | .perGroup vs => vs
  | .nested vss => vss.map .list

/-- Modelled from the spec (§4.2 `Conditional`): one elementwise pick:
a true predicate cell takes the then-value, every other row (false or
null) the otherwise-value; a non-boolean cell is `TypeError`. -/
def condPick : Val → Val → Val → Except ErrorKind Val
  | .bool true, t, _ => .ok t
  | .bool false, _, e => .ok e
  | .vnull, _, e => .ok e
  | _, _, _ => .error .typeError

/-- Elementwise conditional over three equally long columns. -/
def condZip : List Val → List Val → List Val → Except ErrorKind (List Val)
  | [], [], [] => .ok []
  | p :: ps, t :: ts, e :: es =>
    match condPick p t e with
    | .error err => .error err
    | .ok v =>
      match condZip ps ts es with
      | .error err => .error err
      | .ok vs => .ok (v :: vs)
  | _, _, _ => .error .shapeMismatch

/-- Modelled from the spec (§4.2 `Filter`): keep the child's values at
rows whose mask cell is true; null mask cells drop the row; a
non-boolean mask cell is `TypeError`. -/
def maskFilter : List Val → List Val → Except ErrorKind (List Val)
  | [], [] => .ok []
  | v :: vs, .bool true :: ps => (maskFilter vs ps).map (fun out => v :: out)
  | _ :: vs, .bool false :: ps => maskFilter vs ps
  | _ :: vs, .vnull :: ps => maskFilter vs ps
  | _ :: _, _ :: _ => .error .typeError
  | _, _ => .error .shapeMismatch

/-- Reconcile a result against a required length `L` (§4.5): a scalar
broadcasts to `L` copies, a full result must already have length `L`. -/
def toLen (L : Nat) : Result → Except ErrorKind (List Val)
  | .scalar v => .ok (List.replicate L v)
  | .full vs => if vs.length = L then .ok vs else .error .shapeMismatch
  | _ => .error .shapeMismatch

/-- Split a character list at every `|` (regex alternation). -/
def splitBar : List Char → List (List Char)
  | [] => [[]]
  | c :: cs =>
    if c = '|' then [] :: splitBar cs
    else
      match splitBar cs with
      | [] => [[c]]
      | g :: gs => (c :: g) :: gs

/-- Modelled from the spec (§4.1): anchored-regex matching of a column
name; realized for the anchored literal-alternation patterns the
notebook uses (e.g. `^A|B$`), which is all the spec's scenarios
exercise; an unanchored pattern matches nothing. -/
def regexMatch (pat nm : String) : Bool :=
  match pat.data with
  | '^' :: rest =>
    if rest.getLast? = some '$' then
      decide (nm.data ∈ splitBar rest.dropLast)
    else false
  | _ => false

/-- Modelled from the spec (§4.1, §4.2): late-bound resolution of a
`ColumnRef`/`Wildcard` against the bound table's column set: an exact
name matching zero columns is `UnknownColumn`; a regex keeps the
(possibly empty) matching subset; an empty name list is
`InvalidExpression` (§4.1), a name list with an unknown member is
`UnknownColumn`; `Wildcard` is all columns in natural order. -/
def resolveSelector (tbl : Table) : ColSelector → Except ErrorKind (List String)
  | .exact nm => if nm ∈ colNames tbl then .ok [nm] else .error .unknownColumn
  | .regex pat => .ok ((colNames tbl).filter (regexMatch pat))
  | .nameList ns =>
    if ns.isEmpty then .error .invalidExpression
    else if ns.all (fun nm => decide (nm ∈ colNames tbl)) then .ok ns
    else .error .unknownColumn
  | .wildcard => .ok (colNames tbl)

/-- Scatter one group's value to each of the group's row positions. -/
def placeGroup (v : Val) : List Nat → List Val → List Val
  | [], out => out
  | i :: is, out => placeGroup v is (out.set i v)

/-- Scatter every group's value back to its members' row positions. -/
def scatterGroups : List (List Nat × Val) → List Val → List Val
  | [], out => out
  | (g, v) :: rest, out => scatterGroups rest (placeGroup v g out)

/-- Modelled from the spec (§4.2 `WindowOver`, restore case): scatter
each group's result back to the original row positions of its members,
over an output of the original row count. -/
def scatter (n : Nat) (gs : List (List Nat)) (vs : List Val) : List Val :=
  scatterGroups (gs.zip vs) (List.replicate n .vnull)

mutual

/-- Nesting depth of an expression tree: the recursion budget the
evaluator needs (the tree is finite and acyclic, §3). -/
def depth : Expr → Nat
  | .col _ => 1
  | .lit _ => 1
  | .un _ c => depth c + 1
  | .bin _ l r => Nat.max (depth l) (depth r) + 1
  | .agg _ c => depth c + 1
  | .filter c p => Nat.max (depth c) (depth p) + 1
  | .cond p t e => Nat.max (depth p) (Nat.max (depth t) (depth e)) + 1
  | .fold i _ cs => Nat.max (depth i) (depthList cs) + 1
  | .window c _ _ => depth c + 1
  | .aliasN c _ => depth c + 1

/-- Greatest nesting depth among a fold's children. -/
def depthList : List Expr → Nat
  | [] => 0
  | e :: es => Nat.max (depth e) (depthList es)

end

/-- Modelled from the spec (§4.2 `Fold`): the strict left-to-right
sequential reduction: the accumulator starts as the init result and is
combined (with §4.5 shape reconciliation) with each child's result in
listed order. -/
def foldLoop (f : Expr → Except ErrorKind Result) (op : BinOp) :
    Result → List Expr → Except ErrorKind Result
  | acc, [] => .ok acc
  | acc, e :: es =>
    match f e with
    | .error err => .error err
    | .ok r =>
      match applyBinR op acc r with
      | .error err => .error err
      | .ok acc' => foldLoop f op acc' es

/-- Modelled from the spec (§4.2 `WindowOver`): evaluate the child once
per group, each evaluation seeing only that group's rows. -/
def groupsLoop (f : Table → Expr → Except ErrorKind Result) (tbl : Table) (c : Expr) :
    List (List Nat) → Except ErrorKind (List Result)
  | [] => .ok []
  | g :: gs =>
    match f (subTable tbl g) c with
    | .error err => .error err
    | .ok r =>
      match groupsLoop f tbl c gs with
      | .error err => .error err
      | .ok rs => .ok (r :: rs)

/-- Modelled from the spec (§4.2): one step of the expression
evaluator in selection context over the bound table, with `recur` the
evaluator for subexpressions.  Post-order: children are evaluated
before the node's own operation; `Aggregate` evaluates its child as
`Full` and reduces to a broadcast `Scalar`; `WindowOver` partitions by
its key, evaluates the child once per group, and either scatters the
per-group values back to original row positions (`restore_order`) or
returns one list per group (`Nested`). -/
def evalStep (recur : Table → Expr → Except ErrorKind Result)
    (tbl : Table) : Expr → Except ErrorKind Result
  | .col s =>
    match resolveSelector tbl s with
    | .error err => .error err
    | .ok [nm] =>
      match getCol tbl nm with
      | some c => .ok (.full c)
      | none => .error .unknownColumn
    | .ok _ => .error .invalidExpression
  | .lit v => .ok (.scalar v)
  | .un op c =>
    match recur tbl c with
    | .error err => .error err
    | .ok r => applyUnR op r
  | .bin op l r =>
    match recur tbl l with
    | .error err => .error err
    | .ok rl =>
      match recur tbl r with
      | .error err => .error err
      | .ok rr => applyBinR op rl rr
  | .agg op c =>
    match recur tbl c with
    | .error err => .error err
    | .ok r =>
      match reduceAgg op (materialize (rowCount tbl) r) with
      | .error err => .error err
      | .ok v => .ok (.scalar v)
  | .filter c p =>
    match recur tbl c with
    | .error err => .error err
    | .ok rc =>
      match recur tbl p with
      | .error err => .error err
      | .ok rp =>
        match toLen (materialize (rowCount tbl) rc).length rp with
        | .error err => .error err
        | .ok ps =>
          match maskFilter (materialize (rowCount tbl) rc) ps with
          | .error err => .error err
          | .ok out => .ok (.full out)
  | .cond p t el =>
    match recur tbl p with
    | .error err => .error err
    | .ok (.full ps) =>
      match recur tbl t with
      | .error err => .error err
      | .ok rt =>
        match recur tbl el with
        | .error err => .error err
        | .ok re =>
          match toLen ps.length rt with
          | .error err => .error err
          | .ok ts =>
            match toLen ps.length re with
            | .error err => .error err
            | .ok es =>
              match condZip ps ts es with
              | .error err => .error err
              | .ok out => .ok (.full out)
    | .ok _ => .error .shapeMismatch
  | .fold i op cs =>
    match recur tbl i with
    | .error err => .error err
    | .ok acc => foldLoop (recur tbl) op acc cs
  | .window c key restore =>
    match getCol tbl key with
    | none => .error .unknownColumn
    | some kcol =>
      match groupsLoop recur tbl c ((partitionKey kcol).map Prod.snd) with
      | .error err => .error err
      | .ok rs =>
        if restore then
          .ok (.full (scatter (rowCount tbl) ((partitionKey kcol).map Prod.snd)
            (rs.map collapse)))
        else .ok (.nested (rs.map asList))
  | .aliasN c _ => recur tbl c

/-- The evaluator with an explicit recursion budget (the spec's trees
are finite, §3; a budget of the tree's depth always suffices). -/
def evalFuel : Nat → Table → Expr → Except ErrorKind Result
  | 0, _, _ => .error .fuelExhausted
  | n + 1, tbl, e => evalStep (evalFuel n) tbl e

/-- Modelled from the spec (§4.2): `evaluate(node, Selection{table})`:
the evaluator at its sufficient budget. -/
def evaluate (tbl : Table) (e : Expr) : Except ErrorKind Result :=
  evalFuel (depth e) tbl e

/-- Modelled from the spec (§4.2, §4.4): one expression of an
`aggregate` call: the child is evaluated once per group partition
(seeing only that group's rows, in group-iteration order) and each
group's result collapses to the group's single value. -/
def aggregateCol (tbl : Table) (key : String) (e : Expr) :
    Except ErrorKind (List Val) :=
  match getCol tbl key with
  | none => .error .unknownColumn
  | some kcol =>
    mapME (fun p =>
        match evaluate (subTable tbl p.2) e with
        | .error err => .error err
        | .ok r => .ok (collapse r))
      (partitionKey kcol)

/-- Modelled from the spec (§4.4): the key column an `aggregate` call
returns: one key value per group, in group-iteration order. -/
def groupKeys (tbl : Table) (key : String) : Except ErrorKind (List Val) :=
  match getCol tbl key with
  | none => .error .unknownColumn
  | some kcol => .ok ((partitionKey kcol).map Prod.fst)

/-- Whether a selector is a single exact name (needs no expansion). -/
def isExact : ColSelector → Bool
  | .exact _ => true
  | _ => false

mutual

/-- The first multi-column selector (regex, name list or wildcard) of
an expression, in pre-order; `none` when every reference is exact. -/
def firstMulti : Expr → Option ColSelector
  | .col s => if isExact s then none else some s
  | .lit _ => none
  | .un _ c => firstMulti c
  | .bin _ l r => (firstMulti l).orElse (fun _ => firstMulti r)
  | .agg _ c => firstMulti c
  | .filter c p => (firstMulti c).orElse (fun _ => firstMulti p)
  | .cond p t e =>
    ((firstMulti p).orElse (fun _ => firstMulti t)).orElse (fun _ => firstMulti e)
  | .fold i _ cs => (firstMulti i).orElse (fun _ => firstMultiList cs)
  | .window c _ _ => firstMulti c
  | .aliasN c _ => firstMulti c

/-- The first multi-column selector among a fold's children. -/
def firstMultiList : List Expr → Option ColSelector
  | [] => none
  | e :: es => (firstMulti e).orElse (fun _ => firstMultiList es)

end

mutual

/-- Substitute every occurrence of the selector `s` by the exact column
name `nm` (one column of a multi-column expansion). -/
def substSel (s : ColSelector) (nm : String) : Expr → Expr
  | .col s' => if s' = s then .col (.exact nm) else .col s'
  | .lit v => .lit v
  | .un op c => .un op (substSel s nm c)
  | .bin op l r => .bin op (substSel s nm l) (substSel s nm r)
  | .agg op c => .agg op (substSel s nm c)
  | .filter c p => .filter (substSel s nm c) (substSel s nm p)
  | .cond p t e => .cond (substSel s nm p) (substSel s nm t) (substSel s nm e)
  | .fold i op cs => .fold (substSel s nm i) op (substSelList s nm cs)
  | .window c key restore => .window (substSel s nm c) key restore
  | .aliasN c a => .aliasN (substSel s nm c) a

/-- Substitution over a fold's children. -/
def substSelList (s : ColSelector) (nm : String) : List Expr → List Expr
  | [] => []
  | e :: es => substSel s nm e :: substSelList s nm es

end

/-- Modelled from the spec (§4.1, §4.3): expansion of one expression of
a `select` list against the bound table: a multi-column reference
(regex, name list, wildcard) replays the expression once per matched
column; a reference matching zero columns expands to the empty result
set (no error, §4.2), while resolution errors (unknown exact name,
empty name list) propagate. -/
def expandExpr (tbl : Table) (e : Expr) : Except ErrorKind (List Expr) :=
  match firstMulti e with
  | none => .ok [e]
  | some s =>
    match resolveSelector tbl s with
    | .error err => .error err
    | .ok ns => .ok (ns.map (fun nm => substSel s nm e))

/-- Modelled from the spec (§6): `evaluate_list(expressions, Selection)`
(modulo output naming, which no claim concerns): expand each
expression, evaluate each expansion, and materialize every result to
one output column of `row_count` rows (broadcasting scalars, §4.5). -/
def selectExprs (tbl : Table) (es : List Expr) : Except ErrorKind (List (List Val)) :=
  match mapME (expandExpr tbl) es with
  | .error err => .error err
  | .ok ess =>
    match mapME (evaluate tbl) ess.flatten with
    | .error err => .error err
    | .ok rs => .ok (rs.map (materialize (rowCount tbl)))

/-- An item of the notebook's `select` lists: either a bare string or a
full expression (`In[3]`). -/
inductive SelectItem
  | strName (s : String)
  | expr (e : Expr)

/-- Modelled from the notebook (`In[3]`: "the col part is inferred"): a
bare string in a select list stands for a column reference; a literal
string needs an explicit `pl.lit`. -/
def interpItem : SelectItem → Expr
  | .strName s => .col (.exact s)
  | .expr e => e

/-- The notebook's `df.select([...])` call. -/
def select (tbl : Table) (items : List SelectItem) :
    Except ErrorKind (List (List Val)) :=
  selectExprs tbl (items.map interpItem)

/-- Follows the spec's words (§4.2 `Fold`): "acc = init; for each child
in children[] (in listed order): acc = combiner(acc, child_result)" —
the accumulation step over the children's already-computed results. -/
def combineSeq (op : BinOp) : Result → List Result → Except ErrorKind Result
  | acc, [] => .ok acc
  | acc, r :: rs =>
    match applyBinR op acc r with
    | .error err => .error err
    | .ok acc' => combineSeq op acc' rs

theorem foldLoop_eq_combineSeq (f : Expr → Except ErrorKind Result) (op : BinOp) :
    ∀ (cs : List Expr) (acc r : Result),
      foldLoop f op acc cs = .ok r ↔
        ∃ rs, mapME f cs = .ok rs ∧ combineSeq op acc rs = .ok r
  | [], acc, r => by simp [foldLoop, mapME, combineSeq]
  | e :: es, acc, r => by
    rw [foldLoop, mapME]
    cases hfe : f e with
    | error err => simp
    | ok r0 =>
      cases hab : applyBinR op acc r0 with
      | error err =>
        cases hes : mapME f es with
        | error err2 => simp [hab, hes]
        | ok bs => simp [hab, hes, combineSeq]
      | ok acc' =>
        cases hes : mapME f es with
        | error err2 =>
          simp [hab, hes, foldLoop_eq_combineSeq f op es acc' r]
        | ok bs =>
          simp [hab, hes, foldLoop_eq_combineSeq f op es acc' r, combineSeq]

/-- C2: aggregating `sum(B)` grouped by `fruits` over the scenario
table returns exactly the key column `[banana, apple]` — group order
the first occurrence of each key, banana before apple — and the sums
`[10, 5]`. -/
theorem groupby_fruits_sum_scenario :
    groupKeys df "fruits" = .ok [.str "banana", .str "apple"]
    ∧ aggregateCol df "fruits" (.agg .sum (.col (.exact "B"))) =
        .ok [.int 10, .int 5] := by
  constructor <;> decide

/-- C3: a successful `Aggregate` evaluation in selection context is
always a `Scalar` (the child's full result reduced to a single value),
a scalar materializes as its value broadcast to one value per row, and
concretely `sum(B)` over the scenario table selects to
`[15,15,15,15,15]`. -/
theorem aggregate_selection_broadcast :
    (∀ (n : Nat) (tbl : Table) (op : AggOp) (c : Expr) (r : Result),
        evalFuel n tbl (.agg op c) = .ok r → ∃ v, r = .scalar v)
    ∧ (∀ (tbl : Table) (v : Val),
        materialize (rowCount tbl) (.scalar v) = List.replicate (rowCount tbl) v)
    ∧ selectExprs df [.agg .sum (.col (.exact "B"))] =
        .ok [[.int 15, .int 15, .int 15, .int 15, .int 15]] := by
  refine ⟨?_, fun _ _ => rfl, by decide⟩
  intro n tbl op c r h
  match n with
  | 0 => exact absurd h (by simp [evalFuel])
  | n + 1 =>
    rw [evalFuel, evalStep] at h
    split at h
    · exact absurd h (by simp)
    · split at h
      · exact absurd h (by simp)
      · exact ⟨_, (Except.ok.inj h).symm⟩

/-- C5 counterexample: subtraction does not witness fold-order
sensitivity: over the scenario table `Fold(0, subtract, [A, B])` and
`Fold(0, subtract, [B, A])` evaluate to the same column
`[-6,-6,-6,-6,-6]` (the combiner is `acc - child`, and
`(0 - a) - b = (0 - b) - a` over integers). -/
theorem fold_sub_order_counterexample :
    evaluate df (.fold (.lit (.int 0)) .sub
        [.col (.exact "A"), .col (.exact "B")]) =
      evaluate df (.fold (.lit (.int 0)) .sub
        [.col (.exact "B"), .col (.exact "A")])
    ∧ evaluate df (.fold (.lit (.int 0)) .sub
        [.col (.exact "A"), .col (.exact "B")]) =
      .ok (.full [.int (-6), .int (-6), .int (-6), .int (-6), .int (-6)]) := by
  constructor <;> decide

/-- C5 (amended): `Fold(init, combiner, children[])` is the strict
left-to-right sequential reduction — the evaluator's fold node reduces
its init result through its children's results in listed order, which
is equivalent to evaluating the children in listed order and then
accumulating `acc = combiner(acc, child_result)` left to right — and
listed order is observable for a non-commutative combiner such as
string concatenation: folding `concat` over `[fruits, cars]` and over
`[cars, fruits]` differ on the scenario table.  (Subtraction with init
0 does not exhibit the difference; see the counterexample.) -/
theorem fold_left_to_right (n : Nat) (tbl : Table) (i : Expr) (op : BinOp)
    (cs : List Expr) :
    (evalFuel (n + 1) tbl (.fold i op cs) =
      match evalFuel n tbl i with
      | .error err => .error err
      | .ok acc => foldLoop (evalFuel n tbl) op acc cs)
    ∧ (∀ acc r, foldLoop (evalFuel n tbl) op acc cs = .ok r ↔
        ∃ rs, mapME (evalFuel n tbl) cs = .ok rs ∧ combineSeq op acc rs = .ok r)
    ∧ evaluate df (.fold (.lit (.str "")) .concat
        [.col (.exact "fruits"), .col (.exact "cars")]) ≠
      evaluate df (.fold (.lit (.str "")) .concat
        [.col (.exact "cars"), .col (.exact "fruits")]) := by
  refine ⟨rfl, ?_, by decide⟩
  exact fun acc r => foldLoop_eq_combineSeq (evalFuel n tbl) op cs acc r

/-- C7: `Conditional(fruits == "banana", then = B, otherwise = -1)`
over the scenario table evaluates to exactly `[5, 4, -1, -1, 1]`: rows
whose predicate cell is true take the then-column's value, all other
rows the broadcast otherwise-scalar. -/
theorem conditional_banana_scenario :
    evaluate df (.cond (.bin .eq (.col (.exact "fruits")) (.lit (.str "banana")))
        (.col (.exact "B")) (.lit (.int (-1)))) =
      .ok (.full [.int 5, .int 4, .int (-1), .int (-1), .int 1])
    ∧ selectExprs df [.cond (.bin .eq (.col (.exact "fruits")) (.lit (.str "banana")))
        (.col (.exact "B")) (.lit (.int (-1)))] =
      .ok [[.int 5, .int 4, .int (-1), .int (-1), .int 1]] := by
  constructor <;> decide

/-- The notebook's `pl.col(name)` constructor. -/
def plCol (nm : String) : Expr := .col (.exact nm)

/-- The spelled-out form `pl.col(name).sum()` (`In[16]`). -/
def colSum (nm : String) : Expr := .agg .sum (plCol nm)

/-- The shorthand form `pl.sum(name)` (`In[16]`, the notebook calls it
"syntactic sugar for the first"). -/
def plSum (nm : String) : Expr := .agg .sum (.col (.exact nm))

/-- C9: for every table, the shorthand `pl.sum(name)` evaluates to the
same result as the spelled-out `pl.col(name).sum()` — in selection
context, as a select-list expression, and per group in aggregation
context with any grouping key. -/
theorem sum_shorthand_equiv (tbl : Table) (key nm : String) :
    evaluate tbl (plSum nm) = evaluate tbl (colSum nm)
    ∧ selectExprs tbl [plSum nm] = selectExprs tbl [colSum nm]
    ∧ aggregateCol tbl key (plSum nm) = aggregateCol tbl key (colSum nm) :=
  ⟨rfl, rfl, rfl⟩

/-- C10: a bare string in a select list is read as a column reference
(never as a literal value): selecting `[c]` equals selecting
`[ColumnRef(c)]` for every table and name, and on the scenario table
the bare string "B" selects column B's values while only the explicit
`Literal` node yields the constant string column. -/
theorem bare_string_is_column_ref (tbl : Table) (c : String) :
    select tbl [.strName c] = select tbl [.expr (.col (.exact c))]
    ∧ select df [.strName "B"] = .ok [[.int 5, .int 4, .int 3, .int 2, .int 1]]
    ∧ select df [.expr (.lit (.str "B"))] =
        .ok [[.str "B", .str "B", .str "B", .str "B", .str "B"]] :=
  ⟨rfl, by decide, by decide⟩

theorem getCol_eq_none_iff (c : String) :
    ∀ tbl : Table, getCol tbl c = none ↔ c ∉ colNames tbl
  | [] => by simp [getCol, colNames]
  | (m, col) :: rest => by
    by_cases hm : m = c
    · simp [getCol, hm, colNames]
    · simp only [getCol, if_neg hm, colNames, List.map_cons, List.mem_cons]
      rw [getCol_eq_none_iff c rest]
      simp [colNames, Ne.symm hm]

theorem getCol_some_mem (tbl : Table) (c : String) (col : List Val)
    (h : getCol tbl c = some col) : c ∈ colNames tbl := by
  by_contra hc
  rw [← getCol_eq_none_iff c tbl] at hc
  rw [h] at hc
  cases hc

theorem colNames_subTable (tbl : Table) (idxs : List Nat) :
    colNames (subTable tbl idxs) = colNames tbl := by
  simp [colNames, subTable]

theorem getCol_subTable (idxs : List Nat) (c : String) :
    ∀ tbl : Table, getCol (subTable tbl idxs) c =
      (getCol tbl c).map (fun col => idxs.map (fun i => col.getD i .vnull))
  | [] => by simp [subTable, getCol]
  | (m, col) :: rest => by
    by_cases hm : m = c
    · simp [subTable, getCol, hm]
    · simp only [subTable, List.map_cons, getCol, if_neg hm]
      exact getCol_subTable idxs c rest

theorem partitionKey_ne_nil (kcol : List Val) (h : kcol ≠ []) :
    partitionKey kcol ≠ [] := by
  intro hP
  have h0 : 0 < kcol.length := List.length_pos.mpr h
  have hmem := partitionKey_cover kcol 0 h0
  rw [hP] at hmem
  simp at hmem

theorem evalStep_col_exact_unknown (recur : Table → Expr → Except ErrorKind Result)
    (tbl : Table) (c : String) (h : c ∉ colNames tbl) :
    evalStep recur tbl (.col (.exact c)) = .error .unknownColumn := by
  rw [evalStep, resolveSelector]
  simp [h]

/-- C8: an exact `ColumnRef` matching zero columns of the bound table
fails with `UnknownColumn` in every context — evaluated directly in
selection context, as a select-list item, and per group in aggregation
context — whereas a regex `ColumnRef` or a `Wildcard` matching zero
columns yields the empty result set and is not an error. -/
theorem unknown_column_vs_empty_match (tbl : Table) (c key pat : String)
    (kcol : List Val) :
    (getCol tbl c = none →
      evaluate tbl (.col (.exact c)) = .error .unknownColumn)
    ∧ (getCol tbl c = none →
      selectExprs tbl [.col (.exact c)] = .error .unknownColumn)
    ∧ (getCol tbl key = some kcol → kcol ≠ [] → getCol tbl c = none →
      aggregateCol tbl key (.col (.exact c)) = .error .unknownColumn)
    ∧ ((colNames tbl).filter (regexMatch pat) = [] →
      selectExprs tbl [.col (.regex pat)] = .ok [])
    ∧ (colNames tbl = [] → selectExprs tbl [.col .wildcard] = .ok []) := by
  refine ⟨?_, ?_, ?_, ?_, ?_⟩
  · intro h
    exact evalStep_col_exact_unknown (evalFuel 0) tbl c
      ((getCol_eq_none_iff c tbl).mp h)
  · intro h
    have h1 : evaluate tbl (.col (.exact c)) = .error .unknownColumn :=
      evalStep_col_exact_unknown (evalFuel 0) tbl c ((getCol_eq_none_iff c tbl).mp h)
    simp [selectExprs, mapME, expandExpr, firstMulti, isExact, h1]
  · intro hkey hne h
    simp only [aggregateCol, hkey]
    obtain ⟨p, P', hP⟩ : ∃ p P', partitionKey kcol = p :: P' := by
      cases hPk : partitionKey kcol with
      | nil => exact absurd hPk (partitionKey_ne_nil kcol hne)
      | cons p P' => exact ⟨p, P', rfl⟩
    rw [hP, mapME]
    have hsub : evaluate (subTable tbl p.2) (.col (.exact c)) =
        .error .unknownColumn :=
      evalStep_col_exact_unknown (evalFuel 0) (subTable tbl p.2) c
        (by rw [colNames_subTable]; exact (getCol_eq_none_iff c tbl).mp h)
    simp [hsub]
  · intro h
    simp [selectExprs, mapME, expandExpr, firstMulti, isExact, resolveSelector, h]
  · intro h
    simp [selectExprs, mapME, expandExpr, firstMulti, isExact, resolveSelector, h]

theorem mapME_ok_length {α β : Type} (f : α → Except ErrorKind β) :
    ∀ (l : List α) (ys : List β), mapME f l = .ok ys → ys.length = l.length
  | [], ys, h => by
    rw [mapME] at h
    cases h
    rfl
  | a :: as, ys, h => by
    rw [mapME] at h
    cases hfa : f a with
    | error e => rw [hfa] at h; cases h
    | ok b =>
      rw [hfa] at h
      cases hrest : mapME f as with
      | error e => rw [hrest] at h; cases h
      | ok bs =>
        rw [hrest] at h
        cases h
        simp [mapME_ok_length f as bs hrest]

theorem mapME_ok_getElem {α β : Type} (f : α → Except ErrorKind β) :
    ∀ (l : List α) (ys : List β), mapME f l = .ok ys →
      ∀ (j : Nat) (a : α), l[j]? = some a → ∃ b, ys[j]? = some b ∧ f a = .ok b
  | [], ys, h, j, a, hj => by simp at hj
  | a0 :: as, ys, h, j, a, hj => by
    rw [mapME] at h
    cases hfa : f a0 with
    | error e => rw [hfa] at h; cases h
    | ok b0 =>
      rw [hfa] at h
      cases hrest : mapME f as with
      | error e => rw [hrest] at h; cases h
      | ok bs =>
        rw [hrest] at h
        cases h
        match j with
        | 0 =>
          rw [List.getElem?_cons_zero] at hj
          refine ⟨b0, by simp, ?_⟩
          rw [← Option.some.inj hj]
          exact hfa
        | j + 1 =>
          rw [List.getElem?_cons_succ] at hj
          obtain ⟨b, hb1, hb2⟩ := mapME_ok_getElem f as bs hrest j a hj
          exact ⟨b, by simpa using hb1, hb2⟩

theorem mapME_congr_ok {α β : Type} (f : α → Except ErrorKind β) (g : α → β) :
    ∀ l : List α, (∀ a ∈ l, f a = .ok (g a)) → mapME f l = .ok (l.map g)
  | [], _ => rfl
  | a :: as, h => by
    rw [mapME, h a (List.mem_cons_self _ _), mapME_congr_ok f g as
      (fun x hx => h x (List.mem_cons_of_mem _ hx))]
    rfl

theorem groupsLoop_eq_mapME (f : Table → Expr → Except ErrorKind Result)
    (tbl : Table) (c : Expr) :
    ∀ gs : List (List Nat),
      groupsLoop f tbl c gs = mapME (fun g => f (subTable tbl g) c) gs
  | [] => rfl
  | g :: gs => by
    rw [groupsLoop, mapME]
    cases f (subTable tbl g) c with
    | error err => rfl
    | ok r =>
      rw [groupsLoop_eq_mapME f tbl c gs]
      cases mapME (fun g => f (subTable tbl g) c) gs with
      | error err => rfl
      | ok rs => rfl

theorem placeGroup_length (v : Val) :
    ∀ (g : List Nat) (out : List Val), (placeGroup v g out).length = out.length
  | [], out => rfl
  | i :: is, out => by
    rw [placeGroup, placeGroup_length v is, List.length_set]

theorem placeGroup_getElem_not_mem (v : Val) :
    ∀ (g : List Nat) (out : List Val) (i : Nat), i ∉ g →
      (placeGroup v g out)[i]? = out[i]?
  | [], out, i, _ => rfl
  | j :: is, out, i, h => by
    have h1 : i ∉ is := fun hx => h (List.mem_cons_of_mem _ hx)
    have h2 : j ≠ i := fun hx => h (hx ▸ List.mem_cons_self _ _)
    rw [placeGroup, placeGroup_getElem_not_mem v is _ i h1, List.getElem?_set_ne h2]

theorem placeGroup_getElem_mem (v : Val) :
    ∀ (g : List Nat) (out : List Val) (i : Nat), i ∈ g → i < out.length →
      (placeGroup v g out)[i]? = some v
  | [], _, i, h, _ => absurd h (List.not_mem_nil i)
  | j :: is, out, i, h, hlen => by
    rw [placeGroup]
    by_cases hin : i ∈ is
    · exact placeGroup_getElem_mem v is _ i hin (by rw [List.length_set]; exact hlen)
    · have hij : i = j := by
        rcases List.mem_cons.mp h with h | h
        · exact h
        · exact absurd h hin
      rw [placeGroup_getElem_not_mem v is _ i hin]
      subst hij
      exact List.getElem?_set_self hlen

theorem scatterGroups_length :
    ∀ (l : List (List Nat × Val)) (out : List Val),
      (scatterGroups l out).length = out.length
  | [], out => rfl
  | (g, v) :: rest, out => by
    rw [scatterGroups, scatterGroups_length rest, placeGroup_length]

theorem scatterGroups_getElem_not_mem :
    ∀ (l : List (List Nat × Val)) (out : List Val) (i : Nat),
      (∀ q ∈ l, i ∉ q.1) → (scatterGroups l out)[i]? = out[i]?
  | [], out, i, _ => rfl
  | (g, v) :: rest, out, i, h => by
    rw [scatterGroups,
      scatterGroups_getElem_not_mem rest _ i
        (fun q hq => h q (List.mem_cons_of_mem _ hq)),
      placeGroup_getElem_not_mem v g out i (h (g, v) (List.mem_cons_self _ _))]

theorem scatterGroups_getElem (i : Nat) (g : List Nat) (v : Val) :
    ∀ (l : List (List Nat × Val)) (out : List Val) (j : Nat),
      l[j]? = some (g, v) → i ∈ g → i < out.length →
      (∀ (k : Nat) (q : List Nat × Val), l[k]? = some q → k ≠ j → i ∉ q.1) →
      (scatterGroups l out)[i]? = some v
  | [], out, j, hj, _, _, _ => by simp at hj
  | (g0, v0) :: rest, out, j, hj, hig, hlen, huniq => by
    rw [scatterGroups]
    match j with
    | 0 =>
      rw [List.getElem?_cons_zero] at hj
      have hj' := Option.some.inj hj
      have hg : g0 = g := congrArg Prod.fst hj'
      have hv : v0 = v := congrArg Prod.snd hj'
      have hrest : ∀ q ∈ rest, i ∉ q.1 := by
        intro q hq
        obtain ⟨k, hk⟩ := List.mem_iff_getElem?.mp hq
        exact huniq (k + 1) q (by simpa using hk) (Nat.succ_ne_zero k)
      rw [scatterGroups_getElem_not_mem rest _ i hrest]
      rw [hg, hv]
      exact placeGroup_getElem_mem v g out i hig hlen
    | j + 1 =>
      rw [List.getElem?_cons_succ] at hj
      apply scatterGroups_getElem i g v rest _ j hj hig
      · rw [placeGroup_length]
        exact hlen
      · intro k q hk hkj
        refine huniq (k + 1) q (by simpa using hk) ?_
        intro hc
        exact hkj (Nat.succ.inj hc)

theorem partitionKey_mem_group_iff (key : List Val) (p : Val × List Nat)
    (hp : p ∈ partitionKey key) (i : Nat) :
    i ∈ p.2 ↔ i < key.length ∧ key.getD i .vnull = p.1 := by
  rw [partitionKey_groups key p hp]
  simp [List.mem_filter, List.mem_range]

theorem partitionKey_getElem_uniq (key : List Val) (j k : Nat)
    (p q : Val × List Nat) (hj : (partitionKey key)[j]? = some p)
    (hk : (partitionKey key)[k]? = some q) (i : Nat)
    (hip : i ∈ p.2) (hiq : i ∈ q.2) : k = j := by
  have hpmem : p ∈ partitionKey key := List.mem_iff_getElem?.mpr ⟨j, hj⟩
  have hqmem : q ∈ partitionKey key := List.mem_iff_getElem?.mpr ⟨k, hk⟩
  have h1 := (partitionKey_mem_group_iff key p hpmem i).mp hip
  have h2 := (partitionKey_mem_group_iff key q hqmem i).mp hiq
  have hkey : p.1 = q.1 := h1.2 ▸ h2.2
  obtain ⟨hjlt, hjval⟩ := List.getElem?_eq_some_iff.mp hj
  obtain ⟨hklt, hkval⟩ := List.getElem?_eq_some_iff.mp hk
  have hNd := partitionKey_keys_nodup key
  have hjlt' : j < ((partitionKey key).map Prod.fst).length := by
    rw [List.length_map]; exact hjlt
  have hklt' : k < ((partitionKey key).map Prod.fst).length := by
    rw [List.length_map]; exact hklt
  have heq : ((partitionKey key).map Prod.fst).get ⟨k, hklt'⟩ =
      ((partitionKey key).map Prod.fst).get ⟨j, hjlt'⟩ := by
    simp only [List.get_eq_getElem, List.getElem_map, hjval, hkval]
    exact hkey.symm
  exact congrArg Fin.val ((List.Nodup.get_inj_iff hNd).mp heq)

/-- C4: for every table whose partition key column is present (and as
long as the table) and for every child expression, a successful
`WindowOver(child, key)` evaluation with `restore_order = true` is a
`Full` result whose length equals the original row count and whose
value at every row index `i` is the collapsed per-group result of the
child evaluated over (exactly the rows of) the group `i` belongs to. -/
theorem window_restore_order (n : Nat) (tbl : Table) (c : Expr) (key : String)
    (kcol : List Val) (out : List Val)
    (hk : getCol tbl key = some kcol)
    (hlen : kcol.length = rowCount tbl)
    (hev : evalFuel (n + 1) tbl (.window c key true) = .ok (.full out)) :
    out.length = rowCount tbl
    ∧ ∀ p ∈ partitionKey kcol, ∀ i ∈ p.2,
        ∃ r, evalFuel n (subTable tbl p.2) c = .ok r
          ∧ out[i]? = some (collapse r) := by
  simp only [evalFuel, evalStep, hk] at hev
  rw [groupsLoop_eq_mapME] at hev
  cases hgl : mapME (fun g => evalFuel n (subTable tbl g) c)
      ((partitionKey kcol).map Prod.snd) with
  | error err => rw [hgl] at hev; cases hev
  | ok rs =>
    rw [hgl] at hev
    simp only [if_pos] at hev
    have hout : out = scatter (rowCount tbl) ((partitionKey kcol).map Prod.snd)
        (rs.map collapse) := ((Result.full.inj (Except.ok.inj hev))).symm
    constructor
    · rw [hout, scatter, scatterGroups_length, List.length_replicate]
    · intro p hp i hi
      obtain ⟨j, hj⟩ := List.mem_iff_getElem?.mp hp
      have hjsnd : ((partitionKey kcol).map Prod.snd)[j]? = some p.2 := by
        rw [List.getElem?_map, hj]
        rfl
      obtain ⟨r, hr1, hr2⟩ := mapME_ok_getElem _ _ _ hgl j p.2 hjsnd
      refine ⟨r, hr2, ?_⟩
      have hiN : i < kcol.length :=
        ((partitionKey_mem_group_iff kcol p hp i).mp hi).1
      rw [hout, scatter]
      apply scatterGroups_getElem i p.2 (collapse r)
      · rw [List.getElem?_zip_eq_some]
        constructor
        · exact hjsnd
        · rw [List.getElem?_map, hr1]
          rfl
      · exact hi
      · rw [List.length_replicate, ← hlen]
        exact hiN
      · intro k q hkq hkj
        rw [List.getElem?_zip_eq_some] at hkq
        have hq1 := hkq.1
        rw [List.getElem?_map] at hq1
        cases hPk : (partitionKey kcol)[k]? with
        | none => rw [hPk] at hq1; cases hq1
        | some pq =>
          rw [hPk] at hq1
          have hq1' : pq.2 = q.1 := Option.some.inj hq1
          intro hiq
          exact hkj (partitionKey_getElem_uniq kcol j k p pq hj hPk i hi
            (hq1' ▸ hiq))

/-- C4 witness: `sum(B) over fruits` with restored order on the
notebook's table gives `[10, 10, 5, 5, 10]`: row count 5 and each row
its own group's sum. -/
theorem window_restore_order_witness :
    [Val.int 10, Val.int 10, Val.int 5, Val.int 5, Val.int 10].length = rowCount df
    ∧ ∀ p ∈ partitionKey [Val.str "banana", Val.str "banana", Val.str "apple",
        Val.str "apple", Val.str "banana"], ∀ i ∈ p.2,
        ∃ r, evalFuel 2 (subTable df p.2) (.agg .sum (.col (.exact "B"))) = .ok r
          ∧ [Val.int 10, Val.int 10, Val.int 5, Val.int 5, Val.int 10][i]? =
            some (collapse r) :=
  window_restore_order 2 df (.agg .sum (.col (.exact "B"))) "fruits" _ _
    rfl rfl (by decide)

/-- Modelled from the spec (§4.4 reassembly): `explode` of a
list-valued column: each list value expands into that many output rows,
in column order (a non-list value stays a single row). -/
def explodeCol (vs : List Val) : List Val :=
  (vs.map (fun v => match v with | .list l => l | v => [v])).flatten

theorem map_getD_range {α : Type} (d : α) :
    ∀ l : List α, (List.range l.length).map (fun i => l.getD i d) = l
  | [] => rfl
  | a :: l => by
    rw [List.length_cons, List.range_succ_eq_map, List.map_cons, List.map_map]
    have hcomp : ((fun i => (a :: l).getD i d) ∘ Nat.succ) =
        (fun i => l.getD i d) := by
      funext i
      simp
    rw [hcomp, map_getD_range d l]
    rfl

/-- C6: collecting a column into per-group lists (a list-collecting
aggregation) and then exploding the collected column reproduces the
pre-aggregation column's total row count and multiset of values — the
concatenation of the per-group lists is a permutation of the original
column (row order within groups aside). -/
theorem collect_explode_roundtrip (tbl : Table) (key c : String)
    (kcol col : List Val) (out : List Val)
    (hk : getCol tbl key = some kcol)
    (hc : getCol tbl c = some col)
    (hlen : col.length = kcol.length)
    (hagg : aggregateCol tbl key (.col (.exact c)) = .ok out) :
    (explodeCol out).length = col.length ∧ (explodeCol out).Perm col := by
  have hgval : ∀ p ∈ partitionKey kcol,
      ((fun p =>
        match evaluate (subTable tbl p.2) (.col (.exact c)) with
        | .error err => .error err
        | .ok r => .ok (collapse r) :
          Val × List Nat → Except ErrorKind Val)) p
        = .ok (Val.list (p.2.map (fun i => col.getD i .vnull))) := by
    intro p hp
    have hmem : c ∈ colNames (subTable tbl p.2) := by
      rw [colNames_subTable]
      exact getCol_some_mem tbl c col hc
    have hgc : getCol (subTable tbl p.2) c =
        some (p.2.map (fun i => col.getD i .vnull)) := by
      rw [getCol_subTable, hc]
      rfl
    have hsub : evaluate (subTable tbl p.2) (.col (.exact c)) =
        .ok (.full (p.2.map (fun i => col.getD i .vnull))) := by
      show evalStep (evalFuel 0) (subTable tbl p.2) (.col (.exact c)) = _
      rw [evalStep, resolveSelector, if_pos hmem]
      simp [hgc]
    simp [hsub, collapse]
  simp only [aggregateCol, hk] at hagg
  rw [mapME_congr_ok _ _ _ hgval] at hagg
  have hout : out = (partitionKey kcol).map
      (fun p => Val.list (p.2.map (fun i => col.getD i .vnull))) :=
    (Except.ok.inj hagg).symm
  have hexp : explodeCol out =
      (((partitionKey kcol).map Prod.snd).flatten).map
        (fun i => col.getD i .vnull) := by
    rw [hout, explodeCol, List.map_map, List.map_flatten, List.map_map]
    rfl
  have hperm : (explodeCol out).Perm col := by
    rw [hexp]
    have h1 := (partitionKey_flatten_perm kcol).map (fun i => col.getD i .vnull)
    rw [← hlen] at h1
    rw [map_getD_range Val.vnull col] at h1
    exact h1
  exact ⟨hperm.length_eq, hperm⟩

/-- C6 witness: collecting `cars` per `fruits` group over the notebook's
table and exploding reproduces 5 rows that are a permutation of the
original `cars` column. -/
theorem collect_explode_roundtrip_witness :
    (explodeCol [Val.list [Val.str "beetle", Val.str "audi", Val.str "beetle"],
        Val.list [Val.str "beetle", Val.str "beetle"]]).length =
      [Val.str "beetle", Val.str "audi", Val.str "beetle", Val.str "beetle",
        Val.str "beetle"].length
    ∧ (explodeCol [Val.list [Val.str "beetle", Val.str "audi", Val.str "beetle"],
        Val.list [Val.str "beetle", Val.str "beetle"]]).Perm
      [Val.str "beetle", Val.str "audi", Val.str "beetle", Val.str "beetle",
        Val.str "beetle"] :=
  collect_explode_roundtrip df "fruits" "cars" _ _ _ rfl rfl rfl (by decide)

end PolarsSpec
